import Mathlib

/-!
Shallow embedding of certbot_nginx/parser_obj.py.

Raw token structures coming from pyparsing are modelled by `Raw`:
a python value that is a string (`tok`), a list (`seq`), or any other
python object such as an int (`other`).  Parsed objects are modelled by
`Node`: a `Sentence` holds its `_data` list of strings, a `Statements`
holds its parsed children plus the `_trailing_whitespace` field, and a
`Block` holds the `_data` of its `names` Sentence together with the
fields of its `contents` Statements (the source guarantees exactly this
shape: `Block._data == [names, contents]`).

Python exceptions (`errors.MisconfigurationError`) are modelled with
`Except PErr`.
-/

inductive Raw where
  | tok (s : String) : Raw
  | seq (xs : List Raw) : Raw
  | other (tag : Nat) : Raw
deriving Repr

inductive Node where
  | sentence (data : List String) : Node
  | statements (children : List Node) (trailing : Option String) : Node
  | block (names : List String) (bodyChildren : List Node) (bodyTrailing : Option String) : Node
deriving Repr

inductive PErr where
  | misconfiguration (msg : String) : PErr
deriving DecidableEq, Repr

/-- Python `str.isspace` on a single character (the ASCII whitespace
characters recognised by CPython for ASCII strings). -/
def pyIsSpaceChar (c : Char) : Bool :=
  c = ' ' || c = '\t' || c = '\n' || c = '\r' || c = '\x0b' || c = '\x0c'

/-- Python `str.isspace`: true iff the string is non-empty and all of its
characters are whitespace. -/
def pyIsSpace (s : String) : Bool :=
  !s.isEmpty && s.toList.all pyIsSpaceChar

/-- The two quote characters of `word.strip("\"\'")`. -/
def quoteChars : List Char := ['\"', '\'']

/-- Membership in the strip set `"\"\'"`. -/
def isQuoteChar (c : Char) : Bool := c = '\"' || c = '\''

/-- Python `s.strip("\"\'")`: removes every leading and every trailing
quote character. -/
def pyStrip (s : String) : String :=
  String.mk (((s.toList.dropWhile isQuoteChar).reverse.dropWhile isQuoteChar).reverse)

/-- `Sentence.words`: `[word.strip("\"\'") for word in self._data if not word.isspace()]`. -/
def sentence_words (data : List String) : List String :=
  (data.filter (fun w => !pyIsSpace w)).map pyStrip

/-- `Sentence.should_parse`: raw is a list, non-empty, and every element is a string. -/
def sentence_should_parse : Raw → Bool
  | .seq xs => !xs.isEmpty && xs.all (fun e => match e with | .tok _ => true | _ => false)
  | _ => false

/-- `isinstance(x, list)`. -/
def raw_is_list : Raw → Bool
  | .seq _ => true
  | _ => false

/-- `Statements.should_parse`: raw is any list. -/
def statements_should_parse (r : Raw) : Bool := raw_is_list r

/-- `Block.should_parse`: a 2-element list whose first element is
Sentence-parseable and whose second element is a list. -/
def block_should_parse : Raw → Bool
  | .seq [a, b] => sentence_should_parse a && raw_is_list b
  | _ => false

/-- The three parsing hooks. -/
inductive Hook where
  | block : Hook
  | sentence : Hook
  | statements : Hook
deriving DecidableEq, Repr

def hook_should_parse : Hook → Raw → Bool
  | .block, r => block_should_parse r
  | .sentence, r => sentence_should_parse r
  | .statements, r => statements_should_parse r

/-- `DEFAULT_PARSING_HOOKS = (Block, Sentence, Statements)`. -/
def DEFAULT_PARSING_HOOKS : List Hook := [.block, .sentence, .statements]

/-- `_choose_parser` of the source: the first hook in context order whose
`should_parse` returns true (`none` models the raised MisconfigurationError). -/
def choose_hook (hooks : List Hook) (r : Raw) : Option Hook :=
  hooks.find? (fun t => hook_should_parse t r)

/-- `_space_list`: inserts a single-space token between adjacent
non-whitespace tokens.  The source scans right-to-left inserting `" "`
in front of `list_[i]` whenever `list_[i-1]` and `list_[i]` are both
non-whitespace; equivalently, walking the list left to right, a `" "`
is placed between every adjacent pair of non-whitespace tokens. -/
def _space_list : List String → List String
  | [] => []
  | [x] => [x]
  | x :: y :: rest =>
    if !pyIsSpace x && !pyIsSpace y then
      x :: " " :: _space_list (y :: rest)
    else
      x :: _space_list (y :: rest)

/-- Extracts the strings of a raw list, `none` if some element is not a string. -/
def sentence_tokens? : List Raw → Option (List String)
  | [] => some []
  | .tok s :: rest => (sentence_tokens? rest).map (fun l => s :: l)
  | _ => none

/-- `Sentence.parse`: optionally space the list, then validate that the
input is a list of strings and store it.  (When the input holds a
non-string and `add_spaces` is set, CPython would fail inside
`_space_list` with an AttributeError; both failure modes are collapsed
into the structural error here — no claim distinguishes them.) -/
def sentence_parse (r : Raw) (add_spaces : Bool) : Except PErr (List String) :=
  match r with
  | .seq xs =>
    match sentence_tokens? xs with
    | some strs => .ok (if add_spaces then _space_list strs else strs)
    | none => .error (.misconfiguration "Sentence parsing expects a list of string types.")
  | _ => .error (.misconfiguration "Sentence parsing expects a list of string types.")

mutual

/-- Size measure used for termination of the mutually recursive parser. -/
def Raw.rsize : Raw → Nat
  | .tok _ => 1
  | .other _ => 1
  | .seq xs => 1 + Raw.lsize xs

/-- List companion of `Raw.rsize` (`lsize [] = 1` keeps every list size positive). -/
def Raw.lsize : List Raw → Nat
  | [] => 1
  | x :: rest => Raw.rsize x + Raw.lsize rest

end

def Raw.rsize_pos (r : Raw) : 0 < Raw.rsize r := by
  cases r <;> simp only [Raw.rsize] <;> omega

def Raw.lsize_pos (xs : List Raw) : 0 < Raw.lsize xs := by
  cases xs with
  | nil => simp [Raw.lsize]
  | cons x rest => have hanon9 := Raw.rsize_pos x; simp [Raw.lsize]; omega

def Raw.lsize_dropLast_le (xs : List Raw) : Raw.lsize xs.dropLast ≤ Raw.lsize xs := by
  induction xs with
  | nil => simp [Raw.lsize]
  | cons x rest ih =>
    cases rest with
    | nil =>
      simp only [List.dropLast, Raw.lsize]
      have hanon9 := Raw.rsize_pos x
      omega
    | cons y rest2 =>
      simp only [List.dropLast, Raw.lsize] at *
      omega

/-- The raw list from which a Block's `names` Sentence is parsed: with
`add_spaces`, `Block.parse` first executes `parse_this[0].append(" ")`,
mutating the caller's first sub-list in place. -/
def block_names_raw (add_spaces : Bool) (a : Raw) : Raw :=
  if add_spaces then
    match a with
    | .seq ys => Raw.seq (ys ++ [Raw.tok " "])
    | t => t
  else a

mutual

/-- `parse_raw`: dispatches on the first matching hook and parses. -/
def parse_raw (hooks : List Hook) (r : Raw) (add_spaces : Bool) : Except PErr Node :=
  match choose_hook hooks r with
  | none => .error (.misconfiguration "None of the parsing hooks succeeded, so we do not know how to parse this set of lists.")
  | some .sentence => (sentence_parse r add_spaces).map Node.sentence
  | some .statements =>
    match r with
    | .seq xs => (statements_parse hooks xs add_spaces).map (fun p => Node.statements p.1 p.2)
    | _ => .error (.misconfiguration "Statements parsing expects a list!")
  | some .block => block_parse hooks r add_spaces
termination_by 2 * Raw.rsize r + 1
decreasing_by
  all_goals (try simp only [Raw.rsize, Raw.lsize])
  all_goals omega

/-- `Block.parse`: re-checks `should_parse`; with `add_spaces` it appends a
single `" "` token to the first sub-list (in place, in the source) before
parsing it as the `names` Sentence; the second sub-list is parsed as the
`contents` Statements. -/
def block_parse (hooks : List Hook) (r : Raw) (add_spaces : Bool) : Except PErr Node :=
  if block_should_parse r then
    match r with
    | .seq [a, b] =>
      match sentence_parse (block_names_raw add_spaces a) add_spaces with
      | .error e => .error e
      | .ok names =>
        match b with
        | .seq ys =>
          match statements_parse hooks ys add_spaces with
          | .error e => .error e
          | .ok c => .ok (Node.block names c.1 c.2)
        | _ => .error (.misconfiguration "Statements parsing expects a list!")
    | _ => .error (.misconfiguration "Block parsing expects a list of length 2.")
  else .error (.misconfiguration "Block parsing expects a list of length 2.")
termination_by 2 * Raw.rsize r
decreasing_by
  all_goals (try simp only [Raw.rsize, Raw.lsize])
  all_goals (have ha9 := Raw.rsize_pos a; omega)

/-- `Statements.parse` on a raw list: if the last element is a whitespace
string it becomes the trailing whitespace and is excluded from child
parsing; every remaining element is dispatched through `parse_raw`. -/
def statements_parse (hooks : List Hook) (xs : List Raw) (add_spaces : Bool) :
    Except PErr (List Node × Option String) :=
  match xs.getLast? with
  | some (.tok s) =>
    if pyIsSpace s then
      (parse_list hooks xs.dropLast add_spaces).map (fun ns => (ns, some s))
    else
      (parse_list hooks xs add_spaces).map (fun ns => (ns, none))
  | _ => (parse_list hooks xs add_spaces).map (fun ns => (ns, none))
termination_by 2 * Raw.lsize xs + 1
decreasing_by
  all_goals (have hd9 := Raw.lsize_dropLast_le xs; omega)

/-- The recursive dispatch of each statement, left to right; the first
failure aborts (the source raises out of the list comprehension). -/
def parse_list (hooks : List Hook) (xs : List Raw) (add_spaces : Bool) :
    Except PErr (List Node) :=
  match xs with
  | [] => .ok []
  | x :: rest =>
    match parse_raw hooks x add_spaces with
    | .error e => .error e
    | .ok n =>
      match parse_list hooks rest add_spaces with
      | .error e => .error e
      | .ok ns => .ok (n :: ns)
termination_by 2 * Raw.lsize xs
decreasing_by
  all_goals (try simp only [Raw.rsize, Raw.lsize])
  · have hanon9 := Raw.lsize_pos rest; omega
  · have hanon9 := Raw.rsize_pos x; omega

end

/-- `Sentence.dump`: the stored tokens when spaces are included, `words` otherwise. -/
def sentence_dump (include_spaces : Bool) (data : List String) : Raw :=
  if include_spaces then Raw.seq (data.map Raw.tok)
  else Raw.seq ((sentence_words data).map Raw.tok)

/-- Reassembles a `Statements` dump from its children's dumps: the trailing
whitespace is appended only when spaces are included and it was recorded. -/
def statements_assemble (include_spaces : Bool) (ds : List Raw) (tr : Option String) : Raw :=
  match include_spaces, tr with
  | true, some s => Raw.seq (ds ++ [Raw.tok s])
  | _, _ => Raw.seq ds

mutual

/-- `dump`: serializes a node back to the raw list tree.  A `Block` dumps as
the pair of its `names` Sentence dump and its `contents` Statements dump. -/
def Node.dump (include_spaces : Bool) : Node → Raw
  | .sentence d => sentence_dump include_spaces d
  | .statements ch tr => statements_assemble include_spaces (dump_children include_spaces ch) tr
  | .block names ch tr =>
    Raw.seq [sentence_dump include_spaces names,
             statements_assemble include_spaces (dump_children include_spaces ch) tr]

def dump_children (include_spaces : Bool) : List Node → List Raw
  | [] => []
  | c :: rest => Node.dump include_spaces c :: dump_children include_spaces rest

end

/-- The substring of `s` after its last newline (`s[s.rfind("\n")+1:]`, the
whole string when there is no newline). -/
def after_last_newline (s : String) : String :=
  String.mk ((s.toList.reverse.takeWhile (fun c => c ≠ '\n')).reverse)

/-- `Sentence.get_tabs`: whitespace after the rightmost newline of the first
token, when that token is whitespace.  (The source raises IndexError on an
empty `_data`; that state is unreachable through parsing and is mapped to `""`.) -/
def sentence_get_tabs (data : List String) : String :=
  match data with
  | [] => ""
  | first :: _ => if !pyIsSpace first then "" else after_last_newline first

/-- `get_tabs` of a node: a Sentence inspects its first token, a Statements
delegates to its first child (or `""`), a Block delegates to its `names`. -/
def Node.get_tabs : Node → String
  | .sentence d => sentence_get_tabs d
  | .statements ch _ =>
    match ch with
    | [] => ""
    | c :: _ => Node.get_tabs c
  | .block names _ _ => sentence_get_tabs names

/-- `Sentence.set_tabs`: a no-op when the first token is already whitespace,
otherwise a new token `"\n" + tabs` is prepended.  (On an empty `_data` the
source raises IndexError; unreachable through parsing, mapped to the identity.) -/
def sentence_set_tabs (tabs : String) (data : List String) : List String :=
  match data with
  | [] => []
  | first :: rest =>
    if pyIsSpace first then first :: rest
    else ("\n" ++ tabs) :: first :: rest

/-- `get_tabs` of a node as it will read right after `set_tabs tabs` has run
on it.  The value never depends on the trailing whitespace, so it is the
same whether the node's own trailing update already happened or not; this
is exactly the value `self.context.parent.get_tabs()` returns when a child
Statements consults its parent during the parent's `set_tabs` loop. -/
def get_tabs_updated (tabs : String) : Node → String
  | .sentence d => sentence_get_tabs (sentence_set_tabs tabs d)
  | .block names _ _ => sentence_get_tabs (sentence_set_tabs tabs names)
  | .statements ch _ =>
    match ch with
    | [] => ""
    | c :: _ => get_tabs_updated tabs c

/-- The value a child of a Statements node sees as `parent.get_tabs()` while
that Statements runs `set_tabs tabs`: its first child has by then been
updated with the same `tabs`. -/
def stmts_parent_tabs (tabs : String) (ch : List Node) : String :=
  match ch with
  | [] => ""
  | c :: _ => get_tabs_updated tabs c

mutual

/-- `set_tabs`.  `parent_tabs` models `self.context.parent`: `none` when the
context has no parent (the root), `some p` when a parent exists and its
`get_tabs()` evaluates to `p` at the moment the Statements consults it.
A Block updates `names` first, so its contents' trailing whitespace uses
the already-updated header tabs; children of a Statements are updated in
order with the same `tabs`. -/
def Node.set_tabs (tabs : String) (parent_tabs : Option String) : Node → Node
  | .sentence d => .sentence (sentence_set_tabs tabs d)
  | .statements ch tr =>
    .statements (set_tabs_children tabs (stmts_parent_tabs tabs ch) ch)
      (match parent_tabs with
       | none => tr
       | some p => some ("\n" ++ p))
  | .block names ch _ =>
    .block (sentence_set_tabs tabs names)
      (set_tabs_children (tabs ++ "    ") (stmts_parent_tabs (tabs ++ "    ") ch) ch)
      (some ("\n" ++ sentence_get_tabs (sentence_set_tabs tabs names)))

def set_tabs_children (tabs : String) (pt : String) : List Node → List Node
  | [] => []
  | c :: rest => Node.set_tabs tabs (some pt) c :: set_tabs_children tabs pt rest

end

mutual

/-- `iterate`: a Sentence yields itself (subject to the predicate); a
Statements yields the concatenation of its children's iterations and never
itself; a Block yields itself (subject to the predicate) and, when
`expanded` is set, everything from its contents' iteration. -/
def Node.iterate (expanded : Bool) (m : Option (Node → Bool)) : Node → List Node
  | .sentence d =>
    match m with
    | none => [Node.sentence d]
    | some f => if f (Node.sentence d) then [Node.sentence d] else []
  | .statements ch _ => iterate_children expanded m ch
  | .block names ch tr =>
    (match m with
     | none => [Node.block names ch tr]
     | some f => if f (Node.block names ch tr) then [Node.block names ch tr] else []) ++
    (if expanded then iterate_children expanded m ch else [])

def iterate_children (expanded : Bool) (m : Option (Node → Bool)) : List Node → List Node
  | [] => []
  | c :: rest => Node.iterate expanded m c ++ iterate_children expanded m rest

end

def COMMENT : String := " managed by Certbot"

def COMMENT_BLOCK : List String := ["#", COMMENT]

/-- `_is_comment`: `parsed_obj.words[0] == "#"` for a Sentence, `False`
otherwise.  On a Sentence with no words the subscript raises IndexError,
modelled by `none`. -/
def _is_comment (n : Node) : Option Bool :=
  match n with
  | .sentence d =>
    match sentence_words d with
    | [] => none
    | w :: _ => some (w == "#")
  | _ => some false

/-- True iff the node is a `Statements`. -/
def Node.is_stmts : Node → Bool
  | .statements _ _ => true
  | _ => false

/-- True iff the node is a `Block`. -/
def Node.is_block_node : Node → Bool
  | .block _ _ _ => true
  | _ => false

mutual

/-- Frame model of `parse` for the caller's raw structure: the lists the
caller passed in, as they read after parsing runs.  The only in-place
mutation in the source is `parse_this[0].append(" ")` in `Block.parse`
when `add_spaces` is set; `Sentence.parse` and `Statements.parse` rebind
local names only.  Mutations inside nested elements are visible in the
enclosing lists because the elements are aliased, which the recursion
reflects. -/
def post_raw (hooks : List Hook) (add_spaces : Bool) (r : Raw) : Raw :=
  match choose_hook hooks r with
  | none => r
  | some .sentence => r
  | some .statements => post_raw_stmts hooks add_spaces r
  | some .block => post_raw_block hooks add_spaces r
termination_by 4 * Raw.rsize r + 3
decreasing_by
  all_goals omega

/-- The caller's list after `Statements.parse` ran on it via dispatch. -/
def post_raw_stmts (hooks : List Hook) (add_spaces : Bool) (r : Raw) : Raw :=
  match r with
  | .seq xs => Raw.seq (post_stmts hooks add_spaces xs)
  | t => t
termination_by 4 * Raw.rsize r + 2
decreasing_by
  all_goals (try simp only [Raw.rsize, Raw.lsize])
  all_goals omega

/-- The caller's pair after `Block.parse` ran on it via dispatch: the first
sub-list gains a trailing `" "` token exactly when `add_spaces` is set. -/
def post_raw_block (hooks : List Hook) (add_spaces : Bool) (r : Raw) : Raw :=
  match r with
  | .seq [a, b] => Raw.seq [block_names_raw add_spaces a, post_block_contents hooks add_spaces b]
  | t => t
termination_by 4 * Raw.rsize r + 2
decreasing_by
  all_goals (try simp only [Raw.rsize, Raw.lsize])
  all_goals (have ha9 := Raw.rsize_pos a; omega)

/-- The caller's second sub-list after `Block.parse` parsed it as contents. -/
def post_block_contents (hooks : List Hook) (add_spaces : Bool) (b : Raw) : Raw :=
  match b with
  | .seq ys => Raw.seq (post_stmts hooks add_spaces ys)
  | t => t
termination_by 4 * Raw.rsize b
decreasing_by
  all_goals (try simp only [Raw.rsize, Raw.lsize])
  all_goals omega

/-- The caller's statement list after `Statements.parse`: the trailing
whitespace element is never itself parsed. -/
def post_stmts (hooks : List Hook) (add_spaces : Bool) (xs : List Raw) : List Raw :=
  match xs.getLast? with
  | some (.tok s) =>
    if pyIsSpace s then post_list hooks add_spaces xs.dropLast ++ [Raw.tok s]
    else post_list hooks add_spaces xs
  | _ => post_list hooks add_spaces xs
termination_by 4 * Raw.lsize xs + 1
decreasing_by
  all_goals (have hd9 := Raw.lsize_dropLast_le xs; omega)

def post_list (hooks : List Hook) (add_spaces : Bool) : List Raw → List Raw
  | [] => []
  | x :: rest => post_raw hooks add_spaces x :: post_list hooks add_spaces rest
termination_by xs => 4 * Raw.lsize xs
decreasing_by
  all_goals (try simp only [Raw.rsize, Raw.lsize])
  · have hanon9 := Raw.lsize_pos rest; omega
  · have hanon9 := Raw.rsize_pos x; omega

end

/-- The raw block of the spec's indentation example:
`[["server"," "], [["\n    ","listen"," ","80",";"], "\n"]]`. -/
def exampleBlockRaw : Raw :=
  Raw.seq [Raw.seq [Raw.tok "server", Raw.tok " "],
           Raw.seq [Raw.seq [Raw.tok "\n    ", Raw.tok "listen", Raw.tok " ", Raw.tok "80",
                             Raw.tok ";"],
                    Raw.tok "\n"]]

/-- The node the dispatcher produces for `exampleBlockRaw`. -/
def exampleBlockNode : Node :=
  Node.block ["server", " "] [Node.sentence ["\n    ", "listen", " ", "80", ";"]] (some "\n")

/-- No two adjacent tokens are both non-whitespace. -/
def well_spaced : List String → Bool
  | [] => true
  | [_] => true
  | x :: y :: rest => (pyIsSpace x || pyIsSpace y) && well_spaced (y :: rest)

/-- Drops one leading quote character, if present. -/
def drop_one_quote (l : List Char) : List Char :=
  match l with
  | c :: rest => if c ∈ quoteChars then rest else l
  | [] => []

/-- Modelled from the spec words for comparison with the source's `words`:
a SINGLE leading and/or trailing quote character stripped from the token,
interior characters (further quotes included) preserved. -/
def strip_one_quote_spec (s : String) : String :=
  String.mk ((drop_one_quote ((drop_one_quote s.toList).reverse)).reverse)

/-- The `get_tabs` reading of a Block's contents Statements. -/
def block_contents_tabs : Node → Option String
  | .block _ ch tr => some (Node.get_tabs (Node.statements ch tr))
  | _ => none

theorem sentence_tokens?_map {xs : List Raw} {strs : List String}
    (h : sentence_tokens? xs = some strs) : strs.map Raw.tok = xs := by
  induction xs generalizing strs with
  | nil => simp [sentence_tokens?] at h; simp [h]
  | cons x rest ih =>
    cases x with
    | tok s =>
      simp only [sentence_tokens?] at h
      cases hr : sentence_tokens? rest with
      | none => rw [hr] at h; simp at h
      | some l => rw [hr] at h; simp at h; subst h; simp [ih hr]
    | seq ys => simp [sentence_tokens?] at h
    | other t => simp [sentence_tokens?] at h

theorem getLast?_tok_decomp {xs : List Raw} {s : String}
    (h : xs.getLast? = some (Raw.tok s)) : xs.dropLast ++ [Raw.tok s] = xs := by
  cases xs with
  | nil => simp at h
  | cons x rest =>
    have hne : x :: rest ≠ [] := by simp
    have hanon9 := List.getLast?_eq_getLast (x :: rest) hne
    rw [hanon9] at h
    have hl : (x :: rest).getLast hne = Raw.tok s := by
      exact Option.some.inj h
    rw [← hl]
    exact List.dropLast_append_getLast hne

theorem block_names_raw_false (a : Raw) : block_names_raw false a = a := rfl

theorem hook_should_parse_non_list {hk : Hook} {r : Raw} (h : raw_is_list r = false) :
    hook_should_parse hk r = false := by
  cases r with
  | seq xs => simp [raw_is_list] at h
  | tok s => cases hk <;> rfl
  | other t => cases hk <;> rfl

theorem choose_hook_non_list {hooks : List Hook} {r : Raw} (h : raw_is_list r = false) :
    choose_hook hooks r = none := by
  induction hooks with
  | nil => rfl
  | cons hk rest ih =>
    rw [choose_hook, List.find?_cons_of_neg, ← choose_hook]
    · exact ih
    · simp [hook_should_parse_non_list h]

theorem parse_raw_non_list {hooks : List Hook} {r : Raw} {add : Bool}
    (h : raw_is_list r = false) :
    parse_raw hooks r add = .error (.misconfiguration "None of the parsing hooks succeeded, so we do not know how to parse this set of lists.") := by
  cases r with
  | seq xs => simp [raw_is_list] at h
  | tok s =>
    rw [parse_raw.eq_2 hooks _ add (by intro xs hh; cases hh), choose_hook_non_list h]
  | other t =>
    rw [parse_raw.eq_2 hooks _ add (by intro xs hh; cases hh), choose_hook_non_list h]

theorem parse_raw_seq_none {hooks : List Hook} {xs : List Raw} {add : Bool}
    (h : choose_hook hooks (Raw.seq xs) = none) :
    parse_raw hooks (Raw.seq xs) add = .error (.misconfiguration "None of the parsing hooks succeeded, so we do not know how to parse this set of lists.") := by
  rw [parse_raw.eq_1, h]

theorem parse_raw_seq_sentence {hooks : List Hook} {xs : List Raw} {add : Bool}
    (h : choose_hook hooks (Raw.seq xs) = some .sentence) :
    parse_raw hooks (Raw.seq xs) add = (sentence_parse (Raw.seq xs) add).map Node.sentence := by
  rw [parse_raw.eq_1, h]

theorem parse_raw_seq_statements {hooks : List Hook} {xs : List Raw} {add : Bool}
    (h : choose_hook hooks (Raw.seq xs) = some .statements) :
    parse_raw hooks (Raw.seq xs) add =
      (statements_parse hooks xs add).map (fun p => Node.statements p.1 p.2) := by
  rw [parse_raw.eq_1, h]

theorem parse_raw_seq_block {hooks : List Hook} {xs : List Raw} {add : Bool}
    (h : choose_hook hooks (Raw.seq xs) = some .block) :
    parse_raw hooks (Raw.seq xs) add = block_parse hooks (Raw.seq xs) add := by
  rw [parse_raw.eq_1, h]

theorem block_parse_pair {hooks : List Hook} {a b : Raw} {add : Bool}
    (h : block_should_parse (Raw.seq [a, b]) = true) :
    block_parse hooks (Raw.seq [a, b]) add =
      (match sentence_parse (block_names_raw add a) add with
       | .error e => .error e
       | .ok names =>
         match b with
         | .seq ys =>
           (match statements_parse hooks ys add with
            | .error e => .error e
            | .ok c => .ok (Node.block names c.1 c.2))
         | _ => .error (.misconfiguration "Statements parsing expects a list!")) := by
  rw [block_parse.eq_1, if_pos h]
  cases sentence_parse (block_names_raw add a) add with
  | error e => rfl
  | ok names =>
    cases b with
    | seq ys => cases statements_parse hooks ys add <;> rfl
    | tok s => rfl
    | other t => rfl

theorem block_parse_fail {hooks : List Hook} {r : Raw} {add : Bool}
    (h : block_should_parse r = false) :
    block_parse hooks r add = .error (.misconfiguration "Block parsing expects a list of length 2.") := by
  by_cases hpair : ∃ a b, r = Raw.seq [a, b]
  · obtain ⟨a, b, rfl⟩ := hpair
    rw [block_parse.eq_1, if_neg (by simp [h])]
  · rw [block_parse.eq_2 hooks r add (fun a b hh => hpair ⟨a, b, hh⟩)]
    split <;> rfl

theorem block_should_parse_shape {r : Raw} (h : block_should_parse r = true) :
    ∃ a ys, r = Raw.seq [a, Raw.seq ys] ∧ sentence_should_parse a = true := by
  cases r with
  | tok s => simp [block_should_parse] at h
  | other t => simp [block_should_parse] at h
  | seq xs =>
    match xs with
    | [] => simp [block_should_parse] at h
    | [a] => simp [block_should_parse] at h
    | a :: b :: c :: rest => simp [block_should_parse] at h
    | [a, b] =>
      simp only [block_should_parse, Bool.and_eq_true] at h
      obtain ⟨h1, h2⟩ := h
      cases b with
      | seq ys => exact ⟨a, ys, rfl, h1⟩
      | tok s => simp [raw_is_list] at h2
      | other t => simp [raw_is_list] at h2

theorem sentence_parse_false_shape {a : Raw} {strs : List String}
    (h : sentence_parse a false = .ok strs) : a = Raw.seq (strs.map Raw.tok) := by
  cases a with
  | tok s => simp [sentence_parse] at h
  | other t => simp [sentence_parse] at h
  | seq xs =>
    simp only [sentence_parse] at h
    cases ht : sentence_tokens? xs with
    | none => rw [ht] at h; simp at h
    | some l =>
      rw [ht] at h
      simp at h
      subst h
      rw [sentence_tokens?_map ht]

/-- Bundled round-trip statement, proved by strong induction on the parser's
termination measure: with spacing synthesis off, dumping a successfully
parsed node with whitespace included reproduces the raw input exactly. -/
theorem roundtrip_aux : ∀ N : Nat, ∀ hooks : List Hook,
    (∀ r, 2 * Raw.rsize r + 1 < N → ∀ n, parse_raw hooks r false = .ok n →
      n.dump true = r) ∧
    (∀ r, 2 * Raw.rsize r < N → ∀ n, block_parse hooks r false = .ok n →
      n.dump true = r) ∧
    (∀ xs, 2 * Raw.lsize xs + 1 < N → ∀ ns tr,
      statements_parse hooks xs false = .ok (ns, tr) →
      (Node.statements ns tr).dump true = Raw.seq xs) ∧
    (∀ xs, 2 * Raw.lsize xs < N → ∀ ns, parse_list hooks xs false = .ok ns →
      dump_children true ns = xs) := by
  intro N
  induction N using Nat.strong_induction_on with
  | _ N ih =>
  intro hooks
  refine ⟨?_, ?_, ?_, ?_⟩
  · -- parse_raw
    intro r hlt n h
    cases r with
    | tok s =>
      have hr : raw_is_list (Raw.tok s) = false := rfl
      rw [parse_raw_non_list hr] at h
      exact absurd h (by simp)
    | other t =>
      have hr : raw_is_list (Raw.other t) = false := rfl
      rw [parse_raw_non_list hr] at h
      exact absurd h (by simp)
    | seq xs =>
      cases hch : choose_hook hooks (Raw.seq xs) with
      | none => rw [parse_raw_seq_none hch] at h; exact absurd h (by simp)
      | some hk =>
        cases hk with
        | sentence =>
          rw [parse_raw_seq_sentence hch] at h
          cases hs : sentence_parse (Raw.seq xs) false with
          | error e => rw [hs] at h; simp [Except.map] at h
          | ok strs =>
            rw [hs] at h
            simp [Except.map] at h
            subst h
            have hanon9 := sentence_parse_false_shape hs
            simp [Node.dump, sentence_dump, hanon9]
        | statements =>
          rw [parse_raw_seq_statements hch] at h
          cases hst : statements_parse hooks xs false with
          | error e => rw [hst] at h; simp [Except.map] at h
          | ok p =>
            rw [hst] at h
            simp [Except.map] at h
            subst h
            have hm : 2 * Raw.lsize xs + 2 < N := by
              simp only [Raw.rsize] at hlt; omega
            exact (ih (2 * Raw.lsize xs + 2) hm hooks).2.2.1 xs (by omega) p.1 p.2
              (by rw [hst])
        | block =>
          rw [parse_raw_seq_block hch] at h
          exact (ih (2 * Raw.rsize (Raw.seq xs) + 1) hlt hooks).2.1 _ (by omega) n h
  · -- block_parse
    intro r hlt n h
    cases hbp : block_should_parse r with
    | false => rw [block_parse_fail hbp] at h; exact absurd h (by simp)
    | true =>
      obtain ⟨a, ys, rfl, hsa⟩ := block_should_parse_shape hbp
      rw [block_parse_pair hbp] at h
      cases hs : sentence_parse (block_names_raw false a) false with
      | error e => rw [hs] at h; simp at h
      | ok names =>
        rw [block_names_raw_false] at hs
        rw [block_names_raw_false, hs] at h
        try simp only at h
        cases hst : statements_parse hooks ys false with
        | error e => rw [hst] at h; simp at h
        | ok c =>
          rw [hst] at h
          simp at h
          subst h
          have ha : a = Raw.seq (names.map Raw.tok) := sentence_parse_false_shape hs
          have hm : 2 * Raw.lsize ys + 2 < N := by
            have hanon9 := Raw.rsize_pos a
            simp only [Raw.rsize, Raw.lsize] at hlt
            omega
          have hc := (ih (2 * Raw.lsize ys + 2) hm hooks).2.2.1 ys (by omega)
            c.1 c.2 (by rw [hst])
          simp only [Node.dump] at hc ⊢
          rw [ha]
          simp [sentence_dump, hc]
  · -- statements_parse
    intro xs hlt ns tr h
    rw [statements_parse] at h
    cases hl : xs.getLast? with
    | some last =>
      cases last with
      | tok s =>
        rw [hl] at h
        try simp only at h
        cases hsp : pyIsSpace s with
        | true =>
          rw [hsp] at h
          simp only [if_true] at h
          cases hpl : parse_list hooks xs.dropLast false with
          | error e => rw [hpl] at h; simp [Except.map] at h
          | ok ns0 =>
            rw [hpl] at h
            simp [Except.map] at h
            obtain ⟨h1, h2⟩ := h
            subst h1
            subst h2
            have hm : 2 * Raw.lsize xs.dropLast + 1 < N := by
              have hanon9 := Raw.lsize_dropLast_le xs
              omega
            have hd := (ih (2 * Raw.lsize xs.dropLast + 1) hm hooks).2.2.2
              xs.dropLast (by omega) ns0 hpl
            simp only [Node.dump, statements_assemble, dump_children, hd]
            rw [getLast?_tok_decomp hl]
        | false =>
          rw [hsp] at h
          simp only [Bool.false_eq_true, if_false] at h
          cases hpl : parse_list hooks xs false with
          | error e => rw [hpl] at h; simp [Except.map] at h
          | ok ns0 =>
            rw [hpl] at h
            simp [Except.map] at h
            obtain ⟨h1, h2⟩ := h
            subst h1
            subst h2
            have hd := (ih (2 * Raw.lsize xs + 1) (by omega) hooks).2.2.2
              xs (by omega) ns0 hpl
            simp [Node.dump, statements_assemble, hd]
      | seq ys =>
        rw [hl] at h
        try simp only at h
        cases hpl : parse_list hooks xs false with
        | error e => rw [hpl] at h; simp [Except.map] at h
        | ok ns0 =>
          rw [hpl] at h
          simp [Except.map] at h
          obtain ⟨h1, h2⟩ := h
          subst h1
          subst h2
          have hd := (ih (2 * Raw.lsize xs + 1) (by omega) hooks).2.2.2
            xs (by omega) ns0 hpl
          simp [Node.dump, statements_assemble, hd]
      | other t =>
        rw [hl] at h
        try simp only at h
        cases hpl : parse_list hooks xs false with
        | error e => rw [hpl] at h; simp [Except.map] at h
        | ok ns0 =>
          rw [hpl] at h
          simp [Except.map] at h
          obtain ⟨h1, h2⟩ := h
          subst h1
          subst h2
          have hd := (ih (2 * Raw.lsize xs + 1) (by omega) hooks).2.2.2
            xs (by omega) ns0 hpl
          simp [Node.dump, statements_assemble, hd]
    | none =>
      rw [hl] at h
      try simp only at h
      cases hpl : parse_list hooks xs false with
      | error e => rw [hpl] at h; simp [Except.map] at h
      | ok ns0 =>
        rw [hpl] at h
        simp [Except.map] at h
        obtain ⟨h1, h2⟩ := h
        subst h1
        subst h2
        have hd := (ih (2 * Raw.lsize xs + 1) (by omega) hooks).2.2.2
          xs (by omega) ns0 hpl
        simp [Node.dump, statements_assemble, hd]
  · -- parse_list
    intro xs hlt ns h
    cases xs with
    | nil =>
      rw [parse_list] at h
      simp at h
      subst h
      rfl
    | cons x rest =>
      rw [parse_list] at h
      cases hx : parse_raw hooks x false with
      | error e => rw [hx] at h; simp at h
      | ok n1 =>
        rw [hx] at h
        try simp only at h
        cases hr : parse_list hooks rest false with
        | error e => rw [hr] at h; simp at h
        | ok ns1 =>
          rw [hr] at h
          simp at h
          subst h
          have hd1 := (ih (2 * Raw.rsize x + 2)
            (by simp only [Raw.lsize] at hlt; have hanon9 := Raw.lsize_pos rest; omega) hooks).1
            x (by omega) n1 hx
          have hd2 := (ih (2 * Raw.lsize rest + 1)
            (by simp only [Raw.lsize] at hlt; have hanon9 := Raw.rsize_pos x; omega) hooks).2.2.2
            rest (by omega) ns1 hr
          simp [dump_children, hd1, hd2]

theorem choose_hook_some {hooks : List Hook} {r : Raw} {hk : Hook}
    (h : choose_hook hooks r = some hk) : hook_should_parse hk r = true := by
  unfold choose_hook at h
  simpa using List.find?_some h

theorem block_parse_ok_shape {hooks : List Hook} {r : Raw} {add : Bool} {n : Node}
    (h : block_parse hooks r add = .ok n) : n.is_block_node = true := by
  cases hbp : block_should_parse r with
  | false => rw [block_parse_fail hbp] at h; exact absurd h (by simp)
  | true =>
    obtain ⟨a, ys, rfl, hsa⟩ := block_should_parse_shape hbp
    rw [block_parse_pair hbp] at h
    cases hs : sentence_parse (block_names_raw add a) add with
    | error e => rw [hs] at h; simp at h
    | ok names =>
      rw [hs] at h
      try simp only at h
      cases hst : statements_parse hooks ys add with
      | error e => rw [hst] at h; simp at h
      | ok c =>
        rw [hst] at h
        simp at h
        subst h
        rfl

/-- Claim C1: for every raw node that parses successfully with the default
hooks and spacing synthesis off, dumping the parsed node with whitespace
included reproduces the raw input exactly. -/
theorem c1_round_trip (r : Raw) (n : Node)
    (h : parse_raw DEFAULT_PARSING_HOOKS r false = .ok n) : n.dump true = r :=
  (roundtrip_aux (2 * Raw.rsize r + 2) DEFAULT_PARSING_HOOKS).1 r (by omega) n h

theorem c1_round_trip_witness :
    parse_raw DEFAULT_PARSING_HOOKS exampleBlockRaw false = .ok exampleBlockNode ∧
    Node.dump true exampleBlockNode = exampleBlockRaw := by
  have hp : parse_raw DEFAULT_PARSING_HOOKS exampleBlockRaw false = .ok exampleBlockNode := by
    simp +decide [parse_raw.eq_1, block_parse.eq_1, statements_parse, parse_list, choose_hook,
      hook_should_parse, sentence_should_parse, block_should_parse, statements_should_parse,
      raw_is_list, sentence_parse, sentence_tokens?, block_names_raw, exampleBlockRaw,
      exampleBlockNode, List.find?, _space_list, Except.map, DEFAULT_PARSING_HOOKS]
  exact ⟨hp, c1_round_trip exampleBlockRaw exampleBlockNode hp⟩

/-- Claim C2: dispatch is first-match-wins over the ordered hook list; a raw
node satisfying Block's predicate (which also satisfies the Statements
catch-all) is dispatched to Block under the default order, and a successful
parse of it returns a Block node. -/
theorem c2_dispatch_priority (r : Raw) (h : block_should_parse r = true) :
    choose_hook DEFAULT_PARSING_HOOKS r = some Hook.block ∧
    statements_should_parse r = true ∧
    (∀ add n, parse_raw DEFAULT_PARSING_HOOKS r add = .ok n → n.is_block_node = true) := by
  obtain ⟨a, ys, rfl, hsa⟩ := block_should_parse_shape h
  have hch : choose_hook DEFAULT_PARSING_HOOKS (Raw.seq [a, Raw.seq ys]) = some Hook.block := by
    rw [choose_hook]
    exact List.find?_cons_of_pos _ (by simp [hook_should_parse, h])
  refine ⟨hch, rfl, ?_⟩
  intro add n hp
  rw [parse_raw_seq_block hch] at hp
  exact block_parse_ok_shape hp

theorem c2_dispatch_priority_witness :
    choose_hook DEFAULT_PARSING_HOOKS exampleBlockRaw = some Hook.block ∧
    Node.is_block_node exampleBlockNode = true := by
  have h := c2_dispatch_priority exampleBlockRaw (by rfl)
  refine ⟨h.1, ?_⟩
  refine h.2.2 false exampleBlockNode ?_
  simp +decide [parse_raw.eq_1, block_parse.eq_1, statements_parse, parse_list, choose_hook,
    hook_should_parse, sentence_should_parse, block_should_parse, statements_should_parse,
    raw_is_list, sentence_parse, sentence_tokens?, block_names_raw, exampleBlockRaw,
    exampleBlockNode, List.find?, _space_list, Except.map, DEFAULT_PARSING_HOOKS]

/-- Claim C3: parsing `["foo", 42]` fails with the structural error: Sentence
rejects the list (42 is not a string), Block rejects it, the catch-all
Statements accepts it, and the recursive dispatch of its elements finds no
matching hook (neither for the bare string nor for 42), so the error
propagates to the caller and no node is returned. -/
theorem c3_structural_error :
    parse_raw DEFAULT_PARSING_HOOKS (Raw.seq [Raw.tok "foo", Raw.other 42]) false =
      .error (.misconfiguration "None of the parsing hooks succeeded, so we do not know how to parse this set of lists.") ∧
    sentence_should_parse (Raw.seq [Raw.tok "foo", Raw.other 42]) = false ∧
    block_should_parse (Raw.seq [Raw.tok "foo", Raw.other 42]) = false ∧
    statements_should_parse (Raw.seq [Raw.tok "foo", Raw.other 42]) = true ∧
    choose_hook DEFAULT_PARSING_HOOKS (Raw.other 42) = none ∧
    choose_hook DEFAULT_PARSING_HOOKS (Raw.tok "foo") = none := by
  refine ⟨?_, rfl, rfl, rfl, rfl, rfl⟩
  simp +decide [parse_raw.eq_1, parse_raw_non_list, block_parse.eq_1, statements_parse,
    parse_list, choose_hook, hook_should_parse, sentence_should_parse, block_should_parse,
    statements_should_parse, raw_is_list, sentence_parse, sentence_tokens?, block_names_raw,
    List.find?, Except.map, DEFAULT_PARSING_HOOKS]

theorem set_tabs_children_map (tabs pt : String) (ch : List Node) :
    set_tabs_children tabs pt ch = ch.map (fun c => Node.set_tabs tabs (some pt) c) := by
  induction ch with
  | nil => rfl
  | cons c rest ih => simp [set_tabs_children, ih]

/-- Claim C4: `Statements.set_tabs` invokes `set_tabs` with the same tabs on
every child in order (their context parent being this node, whose tabs read
as `stmts_parent_tabs`), and sets its own trailing whitespace to
`"\n" ++ parent.get_tabs()` exactly when the context has a parent
(`pt = some p` models a parent whose `get_tabs()` is `p`); with no parent
the trailing whitespace is left unchanged. -/
theorem c4_statements_set_tabs (ch : List Node) (tr : Option String) (tabs : String)
    (pt : Option String) :
    Node.set_tabs tabs pt (Node.statements ch tr) =
      Node.statements
        (ch.map (fun c => Node.set_tabs tabs (some (stmts_parent_tabs tabs ch)) c))
        (match pt with
         | none => tr
         | some p => some ("\n" ++ p)) := by
  cases pt <;> simp [Node.set_tabs, set_tabs_children_map]

/-- Claim C5, counterexample: on the spec's own example, after
`set_tabs "  "` the Block's body indent reads `"    "` (the body sentence
already starts with whitespace, so its `set_tabs` is a no-op), not the
`"      "` the claim predicts; the header indent does become `"  "`. -/
theorem c5_counterexample :
    (parse_raw DEFAULT_PARSING_HOOKS exampleBlockRaw false).map
        (fun n => block_contents_tabs (Node.set_tabs "  " none n)) = .ok (some "    ") ∧
    (parse_raw DEFAULT_PARSING_HOOKS exampleBlockRaw false).map
        (fun n => Node.get_tabs (Node.set_tabs "  " none n)) = .ok "  " ∧
    (some "    " : Option String) ≠ some "      " := by
  have hp : parse_raw DEFAULT_PARSING_HOOKS exampleBlockRaw false = .ok exampleBlockNode := by
    simp +decide [parse_raw.eq_1, block_parse.eq_1, statements_parse, parse_list, choose_hook,
      hook_should_parse, sentence_should_parse, block_should_parse, statements_should_parse,
      raw_is_list, sentence_parse, sentence_tokens?, block_names_raw, exampleBlockRaw,
      exampleBlockNode, List.find?, _space_list, Except.map, DEFAULT_PARSING_HOOKS]
  refine ⟨?_, ?_, by decide⟩
  · rw [hp]; rfl
  · rw [hp]; rfl

/-- Claim C5 (amended): `Block.set_tabs tabs` invokes `set_tabs tabs` on the
header and `set_tabs (tabs ++ "    ")` on the body children, and sets the
body trailing whitespace to `"\n"` plus the updated header's indent reading;
since `Sentence.set_tabs` is a no-op on a sentence already starting with
whitespace, the spec example dumps with header indent `"  "`, body indent
unchanged at `"    "`, and trailing whitespace `"\n  "`. -/
theorem c5_block_set_tabs_amended :
    (∀ names ch tr tabs pt,
      Node.set_tabs tabs pt (Node.block names ch tr) =
        Node.block (sentence_set_tabs tabs names)
          (ch.map (fun c =>
            Node.set_tabs (tabs ++ "    ") (some (stmts_parent_tabs (tabs ++ "    ") ch)) c))
          (some ("\n" ++ sentence_get_tabs (sentence_set_tabs tabs names)))) ∧
    (parse_raw DEFAULT_PARSING_HOOKS exampleBlockRaw false).map
        (fun n => (Node.set_tabs "  " none n).dump true) =
      .ok (Raw.seq [Raw.seq [Raw.tok "\n  ", Raw.tok "server", Raw.tok " "],
           Raw.seq [Raw.seq [Raw.tok "\n    ", Raw.tok "listen", Raw.tok " ", Raw.tok "80",
                             Raw.tok ";"],
                    Raw.tok "\n  "]]) := by
  constructor
  · intro names ch tr tabs pt
    simp [Node.set_tabs, set_tabs_children_map]
  · have hp : parse_raw DEFAULT_PARSING_HOOKS exampleBlockRaw false = .ok exampleBlockNode := by
      simp +decide [parse_raw.eq_1, block_parse.eq_1, statements_parse, parse_list, choose_hook,
        hook_should_parse, sentence_should_parse, block_should_parse, statements_should_parse,
        raw_is_list, sentence_parse, sentence_tokens?, block_names_raw, exampleBlockRaw,
        exampleBlockNode, List.find?, _space_list, Except.map, DEFAULT_PARSING_HOOKS]
    rw [hp]; rfl

theorem space_list_head (y : String) (rest : List String) :
    ∃ t, _space_list (y :: rest) = y :: t := by
  cases rest with
  | nil => exact ⟨[], rfl⟩
  | cons z rs =>
    simp only [_space_list]
    split
    · exact ⟨" " :: _space_list (z :: rs), rfl⟩
    · exact ⟨_space_list (z :: rs), rfl⟩

theorem well_spaced_no_op : ∀ l, well_spaced l = true → _space_list l = l := by
  intro l
  induction l with
  | nil => intro _; rfl
  | cons x rest ih =>
    cases rest with
    | nil => intro _; rfl
    | cons y rs =>
      intro hw
      simp only [well_spaced, Bool.and_eq_true] at hw
      obtain ⟨h1, h2⟩ := hw
      have hcond : (!pyIsSpace x && !pyIsSpace y) = false := by
        cases hx : pyIsSpace x <;> cases hy : pyIsSpace y <;> simp_all
      simp [_space_list, hcond, ih h2]

theorem space_list_spaced : ∀ l, well_spaced (_space_list l) = true := by
  intro l
  induction l with
  | nil => rfl
  | cons x rest ih =>
    cases rest with
    | nil => rfl
    | cons y rs =>
      obtain ⟨t, ht⟩ := space_list_head y rs
      rw [ht] at ih
      simp only [_space_list]
      by_cases hc : (!pyIsSpace x && !pyIsSpace y) = true
      · rw [if_pos hc, ht]
        have hsp : pyIsSpace " " = true := by decide
        simp [well_spaced, hsp, ih]
      · rw [if_neg hc, ht]
        have hor : (pyIsSpace x || pyIsSpace y) = true := by
          cases hx : pyIsSpace x <;> cases hy : pyIsSpace y <;> simp_all
        simp [well_spaced, hor, ih]

/-- Claim C6: spacing synthesis — `parse_raw (["foo","bar"], add_spaces)`
yields a Sentence dumping to `["foo"," ","bar"]`; `_space_list` leaves any
already well-spaced list unchanged, and its output is always well spaced
(hence synthesis is idempotent). -/
theorem c6_spacing_synthesis :
    parse_raw DEFAULT_PARSING_HOOKS (Raw.seq [Raw.tok "foo", Raw.tok "bar"]) true =
      .ok (Node.sentence ["foo", " ", "bar"]) ∧
    Node.dump true (Node.sentence ["foo", " ", "bar"]) =
      Raw.seq [Raw.tok "foo", Raw.tok " ", Raw.tok "bar"] ∧
    (∀ l, well_spaced l = true → _space_list l = l) ∧
    (∀ l, well_spaced (_space_list l) = true) := by
  refine ⟨?_, rfl, well_spaced_no_op, space_list_spaced⟩
  simp +decide [parse_raw.eq_1, choose_hook, hook_should_parse, sentence_should_parse,
    block_should_parse, statements_should_parse, raw_is_list, sentence_parse,
    sentence_tokens?, _space_list, Except.map, List.find?, DEFAULT_PARSING_HOOKS]

theorem c6_spacing_synthesis_witness :
    _space_list ["foo", " ", "bar"] = ["foo", " ", "bar"] :=
  c6_spacing_synthesis.2.2.1 ["foo", " ", "bar"] (by decide)

theorem mem_iterate_children {e : Bool} {m : Option (Node → Bool)} {x : Node} :
    ∀ ch : List Node, x ∈ iterate_children e m ch → ∃ c, c ∈ ch ∧ x ∈ Node.iterate e m c := by
  intro ch
  induction ch with
  | nil => simp [iterate_children]
  | cons c rest ih =>
    simp only [iterate_children, List.mem_append]
    rintro (h | h)
    · exact ⟨c, by simp, h⟩
    · obtain ⟨c2, hc2, hx2⟩ := ih h
      exact ⟨c2, by simp [hc2], hx2⟩

theorem mem_self_part {m : Option (Node → Bool)} {b x : Node}
    (h : x ∈ (match m with
              | none => [b]
              | some f => if f b then [b] else [])) : x = b := by
  cases m with
  | none => simpa using h
  | some f =>
    try simp only at h
    by_cases hf : f b = true
    · rw [if_pos hf] at h; simpa using h
    · rw [if_neg hf] at h; simp at h

theorem iterate_no_stmts_aux : ∀ N : Nat, ∀ n : Node, sizeOf n < N →
    ∀ e m x, x ∈ Node.iterate e m n → x.is_stmts = false := by
  intro N
  induction N using Nat.strong_induction_on with
  | _ N ih =>
  intro n hn e m x hx
  cases n with
  | sentence d =>
    simp only [Node.iterate] at hx
    have hxb := mem_self_part hx
    subst hxb
    rfl
  | statements ch tr =>
    simp only [Node.iterate] at hx
    obtain ⟨c, hc, hxc⟩ := mem_iterate_children ch hx
    have hcs : sizeOf c < sizeOf (Node.statements ch tr) := by
      have h1 := List.sizeOf_lt_of_mem hc
      simp only [Node.statements.sizeOf_spec]
      omega
    exact ih (sizeOf (Node.statements ch tr)) hn c hcs e m x hxc
  | block names ch tr =>
    simp only [Node.iterate] at hx
    rw [List.mem_append] at hx
    cases hx with
    | inl h =>
      have hxb := mem_self_part h
      subst hxb
      rfl
    | inr h =>
      split at h
      · obtain ⟨c, hc, hxc⟩ := mem_iterate_children ch h
        have hcs : sizeOf c < sizeOf (Node.block names ch tr) := by
          have h1 := List.sizeOf_lt_of_mem hc
          simp only [Node.block.sizeOf_spec]
          have hnn : 0 < sizeOf names := by cases names <;> simp_arith
          omega
        exact ih (sizeOf (Node.block names ch tr)) hn c hcs e m x hxc
      · simp at h

theorem iterate_children_flatten (e : Bool) (m : Option (Node → Bool)) :
    ∀ ch : List Node, iterate_children e m ch = (ch.map (Node.iterate e m)).flatten := by
  intro ch
  induction ch with
  | nil => rfl
  | cons c rest ih => simp [iterate_children, ih]

/-- Claim C7: a Statements' iteration is the concatenation of its children's
iterations; a Statements node itself is never yielded (every yielded node is
a Block or Sentence); a Block yields itself (subject to the predicate) and,
with `expanded` set, then everything of its contents' iteration; concretely
a Block with one inner Sentence iterated expanded yields the Block then the
Sentence. -/
theorem c7_traversal_visibility :
    (∀ ch tr e m, Node.iterate e m (Node.statements ch tr) =
      (ch.map (Node.iterate e m)).flatten) ∧
    (∀ n e m x, x ∈ Node.iterate e m n → x.is_stmts = false) ∧
    (∀ names ch tr m, Node.iterate true m (Node.block names ch tr) =
      (match m with
       | none => [Node.block names ch tr]
       | some f => if f (Node.block names ch tr) then [Node.block names ch tr] else []) ++
      Node.iterate true m (Node.statements ch tr)) ∧
    (∀ names ch tr m, Node.iterate false m (Node.block names ch tr) =
      (match m with
       | none => [Node.block names ch tr]
       | some f => if f (Node.block names ch tr) then [Node.block names ch tr] else [])) ∧
    Node.iterate true none (Node.block ["b"] [Node.sentence ["x", ";"]] none) =
      [Node.block ["b"] [Node.sentence ["x", ";"]] none, Node.sentence ["x", ";"]] := by
  refine ⟨?_, ?_, ?_, ?_, rfl⟩
  · intro ch tr e m
    simp [Node.iterate, iterate_children_flatten]
  · intro n e m x hx
    exact iterate_no_stmts_aux (sizeOf n + 1) n (by omega) e m x hx
  · intro names ch tr m
    simp [Node.iterate]
  · intro names ch tr m
    simp [Node.iterate]

theorem c7_traversal_visibility_witness :
    Node.is_stmts (Node.sentence ["x", ";"]) = false :=
  c7_traversal_visibility.2.1 (Node.block ["b"] [Node.sentence ["x", ";"]] none) true none
    (Node.sentence ["x", ";"]) (by exact .tail _ (.head _))

/-- Claim C8, counterexample: the whitespace-only raw list `[" "]` parses as
a Sentence with no words; on that node `_is_comment` hits an IndexError in
`words[0]` (modelled `none`) instead of returning false as the claim
states. -/
theorem c8_counterexample :
    parse_raw DEFAULT_PARSING_HOOKS (Raw.seq [Raw.tok " "]) false =
      .ok (Node.sentence [" "]) ∧
    _is_comment (Node.sentence [" "]) = none ∧
    _is_comment (Node.sentence [" "]) ≠ some false := by
  refine ⟨?_, rfl, by decide⟩
  simp +decide [parse_raw.eq_1, choose_hook, hook_should_parse, sentence_should_parse,
    block_should_parse, statements_should_parse, raw_is_list, sentence_parse,
    sentence_tokens?, Except.map, List.find?, DEFAULT_PARSING_HOOKS]

/-- Claim C8 (amended): `_is_comment` returns true iff the node is a Sentence
whose (non-empty) words list starts with `"#"`; it returns false for every
non-Sentence node and for a Sentence whose words start with another word;
on a Sentence with no words it raises (modelled `none`) rather than
returning false. -/
theorem c8_is_comment_amended : ∀ n : Node,
    (_is_comment n = some true ↔
      ∃ d ws, n = Node.sentence d ∧ sentence_words d = "#" :: ws) ∧
    (_is_comment n = none ↔ ∃ d, n = Node.sentence d ∧ sentence_words d = []) ∧
    ((∀ d, n ≠ Node.sentence d) → _is_comment n = some false) := by
  intro n
  cases n with
  | sentence d =>
    refine ⟨?_, ?_, ?_⟩
    · constructor
      · intro h
        simp only [_is_comment] at h
        cases hw : sentence_words d with
        | nil => rw [hw] at h; cases h
        | cons w ws =>
          rw [hw] at h
          have hwb : (w == "#") = true := Option.some.inj h
          have hwe : w = "#" := by simpa using hwb
          exact ⟨d, ws, rfl, by rw [hw, hwe]⟩
      · rintro ⟨d2, ws, hd, hwords⟩
        injection hd with hd2
        subst hd2
        simp [_is_comment, hwords]
    · constructor
      · intro h
        simp only [_is_comment] at h
        cases hw : sentence_words d with
        | nil => exact ⟨d, rfl, hw⟩
        | cons w ws => rw [hw] at h; cases h
      · rintro ⟨d2, hd, hwords⟩
        injection hd with hd2
        subst hd2
        simp [_is_comment, hwords]
    · intro hne
      exact absurd rfl (hne d)
  | statements ch tr =>
    refine ⟨by simp [_is_comment], by simp [_is_comment], fun _ => rfl⟩
  | block names ch tr =>
    refine ⟨by simp [_is_comment], by simp [_is_comment], fun _ => rfl⟩

theorem dropWhile_head_false (p : Char → Bool) :
    ∀ l : List Char, ∀ c, (l.dropWhile p).head? = some c → p c = false := by
  intro l
  induction l with
  | nil => intro c h; simp at h
  | cons a rest ih =>
    intro c h
    by_cases ha : p a = true
    · rw [List.dropWhile_cons_of_pos ha] at h
      exact ih c h
    · rw [List.dropWhile_cons_of_neg ha] at h
      simp at h
      subst h
      simpa using ha

theorem takeWhile_all_true (p : Char → Bool) :
    ∀ l : List Char, (l.takeWhile p).all p = true := by
  intro l
  induction l with
  | nil => rfl
  | cons a rest ih =>
    by_cases ha : p a = true
    · rw [List.takeWhile_cons_of_pos ha]
      simp [ha, ih]
    · rw [List.takeWhile_cons_of_neg ha]
      rfl

theorem dropWhile_getLast?_eq (p : Char → Bool) :
    ∀ l : List Char, l.dropWhile p ≠ [] → (l.dropWhile p).getLast? = l.getLast? := by
  intro l
  induction l with
  | nil => intro h; exact absurd rfl h
  | cons a rest ih =>
    intro h
    by_cases ha : p a = true
    · rw [List.dropWhile_cons_of_pos ha] at h ⊢
      have hrest : rest ≠ [] := by
        intro he
        subst he
        exact h rfl
      rw [ih h]
      cases rest with
      | nil => exact absurd rfl hrest
      | cons b t => simp [List.getLast?_cons_cons]
    · rw [List.dropWhile_cons_of_neg ha]

theorem pyStrip_spec : ∀ s : String,
    ∃ pre post : List Char,
      s.toList = pre ++ (pyStrip s).toList ++ post ∧
      pre.all isQuoteChar = true ∧
      post.all isQuoteChar = true ∧
      (∀ c, (pyStrip s).toList.head? = some c → isQuoteChar c = false) ∧
      (∀ c, (pyStrip s).toList.getLast? = some c → isQuoteChar c = false) := by
  intro s
  have hres : (pyStrip s).toList =
      ((s.toList.dropWhile isQuoteChar).reverse.dropWhile isQuoteChar).reverse := rfl
  refine ⟨s.toList.takeWhile isQuoteChar,
    ((s.toList.dropWhile isQuoteChar).reverse.takeWhile isQuoteChar).reverse, ?_, ?_, ?_, ?_, ?_⟩
  · rw [hres]
    have h1 : s.toList = s.toList.takeWhile isQuoteChar ++ s.toList.dropWhile isQuoteChar :=
      (List.takeWhile_append_dropWhile isQuoteChar s.toList).symm
    have h2 : (s.toList.dropWhile isQuoteChar).reverse =
        (s.toList.dropWhile isQuoteChar).reverse.takeWhile isQuoteChar ++
          (s.toList.dropWhile isQuoteChar).reverse.dropWhile isQuoteChar :=
      (List.takeWhile_append_dropWhile isQuoteChar (s.toList.dropWhile isQuoteChar).reverse).symm
    have h3 : s.toList.dropWhile isQuoteChar =
        ((s.toList.dropWhile isQuoteChar).reverse.dropWhile isQuoteChar).reverse ++
          ((s.toList.dropWhile isQuoteChar).reverse.takeWhile isQuoteChar).reverse := by
      have h4 := congrArg List.reverse h2
      rw [List.reverse_reverse, List.reverse_append] at h4
      exact h4
    calc s.toList
        = s.toList.takeWhile isQuoteChar ++ s.toList.dropWhile isQuoteChar := h1
      _ = s.toList.takeWhile isQuoteChar ++
            (((s.toList.dropWhile isQuoteChar).reverse.dropWhile isQuoteChar).reverse ++
             ((s.toList.dropWhile isQuoteChar).reverse.takeWhile isQuoteChar).reverse) := by
            rw [← h3]
      _ = _ := by rw [List.append_assoc]
  · exact takeWhile_all_true isQuoteChar s.toList
  · rw [List.all_reverse]
    exact takeWhile_all_true isQuoteChar _
  · intro c hc
    rw [hres] at hc
    rw [List.head?_reverse] at hc
    by_cases hB : (s.toList.dropWhile isQuoteChar).reverse.dropWhile isQuoteChar = []
    · rw [hB] at hc; cases hc
    · rw [dropWhile_getLast?_eq isQuoteChar _ hB] at hc
      rw [List.getLast?_reverse] at hc
      exact dropWhile_head_false isQuoteChar s.toList c hc
  · intro c hc
    rw [hres] at hc
    rw [List.getLast?_reverse] at hc
    exact dropWhile_head_false isQuoteChar _ c hc

/-- Claim C9, counterexample: for the parsed Sentence `["''foo''"]`, the
derived `words` is `["foo"]` (Python strip removes ALL leading and trailing
quotes), while the claim's single-quote-stripping reading predicts
`["'foo'"]`. -/
theorem c9_counterexample :
    parse_raw DEFAULT_PARSING_HOOKS (Raw.seq [Raw.tok "''foo''"]) false =
      .ok (Node.sentence ["''foo''"]) ∧
    sentence_words ["''foo''"] = ["foo"] ∧
    (["''foo''"].filter (fun w => !pyIsSpace w)).map strip_one_quote_spec = ["'foo'"] ∧
    (["foo"] : List String) ≠ ["'foo'"] := by
  refine ⟨?_, by decide, by decide, by decide⟩
  simp +decide [parse_raw.eq_1, choose_hook, hook_should_parse, sentence_should_parse,
    block_should_parse, statements_should_parse, raw_is_list, sentence_parse,
    sentence_tokens?, Except.map, List.find?, DEFAULT_PARSING_HOOKS]

/-- Claim C9 (amended): `words` is the subsequence of non-whitespace tokens,
in order, with ALL leading and trailing quote characters stripped from each
token (the stripped prefix and suffix consist of quote characters only, the
remaining interior — further interior quotes included — is preserved and
starts and ends with a non-quote character). -/
theorem c9_words_amended :
    (∀ data, sentence_words data = (data.filter (fun w => !pyIsSpace w)).map pyStrip) ∧
    (∀ s : String, ∃ pre post : List Char,
      s.toList = pre ++ (pyStrip s).toList ++ post ∧
      pre.all isQuoteChar = true ∧
      post.all isQuoteChar = true ∧
      (∀ c, (pyStrip s).toList.head? = some c → isQuoteChar c = false) ∧
      (∀ c, (pyStrip s).toList.getLast? = some c → isQuoteChar c = false)) :=
  ⟨fun _ => rfl, pyStrip_spec⟩

theorem c9_words_amended_witness : sentence_words ["''a''", " "] = ["a"] :=
  (c9_words_amended.1 ["''a''", " "]).trans (by decide)

theorem post_raw_block_other {hooks : List Hook} {add : Bool} {r : Raw}
    (h : ∀ a b, r = Raw.seq [a, b] → False) : post_raw_block hooks add r = r := by
  rw [post_raw_block.eq_2 hooks add r h]

theorem post_id_aux : ∀ N : Nat, ∀ hooks : List Hook,
    (∀ r, 4 * Raw.rsize r + 3 < N → post_raw hooks false r = r) ∧
    (∀ r, 4 * Raw.rsize r + 2 < N → post_raw_stmts hooks false r = r) ∧
    (∀ r, 4 * Raw.rsize r + 2 < N → post_raw_block hooks false r = r) ∧
    (∀ b, 4 * Raw.rsize b < N → post_block_contents hooks false b = b) ∧
    (∀ xs, 4 * Raw.lsize xs + 1 < N → post_stmts hooks false xs = xs) ∧
    (∀ xs, 4 * Raw.lsize xs < N → post_list hooks false xs = xs) := by
  intro N
  induction N using Nat.strong_induction_on with
  | _ N ih =>
  intro hooks
  refine ⟨?_, ?_, ?_, ?_, ?_, ?_⟩
  · intro r hlt
    rw [post_raw]
    cases hch : choose_hook hooks r with
    | none => rfl
    | some hk =>
      cases hk with
      | sentence => rfl
      | statements =>
        exact (ih (4 * Raw.rsize r + 3) hlt hooks).2.1 r (by omega)
      | block =>
        exact (ih (4 * Raw.rsize r + 3) hlt hooks).2.2.1 r (by omega)
  · intro r hlt
    cases r with
    | tok s => exact post_raw_stmts.eq_2 hooks false _ (fun xs hh => Raw.noConfusion hh)
    | other t => exact post_raw_stmts.eq_2 hooks false _ (fun xs hh => Raw.noConfusion hh)
    | seq xs =>
      rw [post_raw_stmts]
      have hS := (ih (4 * Raw.rsize (Raw.seq xs) + 2) hlt hooks).2.2.2.2.1 xs
        (by simp only [Raw.rsize]; omega)
      rw [hS]
  · intro r hlt
    by_cases hpair : ∃ a b, r = Raw.seq [a, b]
    · obtain ⟨a, b, rfl⟩ := hpair
      rw [post_raw_block.eq_1]
      have hB := (ih (4 * Raw.rsize (Raw.seq [a, b]) + 2) hlt hooks).2.2.2.1 b
        (by simp only [Raw.rsize, Raw.lsize]; have hanon9 := Raw.rsize_pos a; omega)
      rw [hB, block_names_raw_false]
    · exact post_raw_block_other (fun a b hh => hpair ⟨a, b, hh⟩)
  · intro b hlt
    cases b with
    | tok s => exact post_block_contents.eq_2 hooks false _ (fun ys hh => Raw.noConfusion hh)
    | other t => exact post_block_contents.eq_2 hooks false _ (fun ys hh => Raw.noConfusion hh)
    | seq ys =>
      rw [post_block_contents]
      have hS := (ih (4 * Raw.rsize (Raw.seq ys)) hlt hooks).2.2.2.2.1 ys
        (by simp only [Raw.rsize]; omega)
      rw [hS]
  · intro xs hlt
    rw [post_stmts]
    cases hl : xs.getLast? with
    | some last =>
      cases last with
      | tok s =>
        try simp only
        cases hsp : pyIsSpace s with
        | true =>
          simp only [hsp, if_true]
          have hL := (ih (4 * Raw.lsize xs + 1) hlt hooks).2.2.2.2.2 xs.dropLast
            (by have hanon9 := Raw.lsize_dropLast_le xs; omega)
          rw [hL, getLast?_tok_decomp hl]
        | false =>
          simp only [hsp, Bool.false_eq_true, if_false]
          exact (ih (4 * Raw.lsize xs + 1) hlt hooks).2.2.2.2.2 xs (by omega)
      | seq ys =>
        try simp only
        exact (ih (4 * Raw.lsize xs + 1) hlt hooks).2.2.2.2.2 xs (by omega)
      | other t =>
        try simp only
        exact (ih (4 * Raw.lsize xs + 1) hlt hooks).2.2.2.2.2 xs (by omega)
    | none =>
      try simp only
      exact (ih (4 * Raw.lsize xs + 1) hlt hooks).2.2.2.2.2 xs (by omega)
  · intro xs hlt
    cases xs with
    | nil => rw [post_list]
    | cons x rest =>
      rw [post_list]
      have hP := (ih (4 * Raw.lsize (x :: rest)) hlt hooks).1 x
        (by simp only [Raw.lsize]; have hanon9 := Raw.lsize_pos rest; omega)
      have hL := (ih (4 * Raw.lsize (x :: rest)) hlt hooks).2.2.2.2.2 rest
        (by simp only [Raw.lsize]; have hanon9 := Raw.rsize_pos x; omega)
      rw [hP, hL]

/-- Claim C10: with spacing synthesis off, parsing leaves the caller's raw
structure unchanged; with synthesis on, once the dispatcher selects Block
for a pair, `Block.parse` appends a single-space token in place to the first
sub-list of the structure the caller passed in (so the caller's list is
modified), which never equals the original first sub-list. -/
theorem c10_block_parse_mutation :
    (∀ r, post_raw DEFAULT_PARSING_HOOKS false r = r) ∧
    (∀ ys b, choose_hook DEFAULT_PARSING_HOOKS (Raw.seq [Raw.seq ys, b]) = some Hook.block →
      post_raw DEFAULT_PARSING_HOOKS true (Raw.seq [Raw.seq ys, b]) =
        Raw.seq [Raw.seq (ys ++ [Raw.tok " "]),
                 post_block_contents DEFAULT_PARSING_HOOKS true b]) ∧
    (∀ ys, Raw.seq (ys ++ [Raw.tok " "]) ≠ Raw.seq ys) := by
  refine ⟨?_, ?_, ?_⟩
  · intro r
    exact (post_id_aux (4 * Raw.rsize r + 4) DEFAULT_PARSING_HOOKS).1 r (by omega)
  · intro ys b hch
    rw [post_raw, hch, post_raw_block.eq_1]
    rfl
  · intro ys h
    injection h with h2
    have hln := congrArg List.length h2
    simp at hln

theorem c10_block_parse_mutation_witness :
    post_raw DEFAULT_PARSING_HOOKS false exampleBlockRaw = exampleBlockRaw ∧
    post_raw DEFAULT_PARSING_HOOKS true (Raw.seq [Raw.seq [Raw.tok "server"], Raw.seq []]) =
      Raw.seq [Raw.seq [Raw.tok "server", Raw.tok " "],
               post_block_contents DEFAULT_PARSING_HOOKS true (Raw.seq [])] :=
  ⟨c10_block_parse_mutation.1 exampleBlockRaw,
   c10_block_parse_mutation.2.1 [Raw.tok "server"] (Raw.seq []) rfl⟩

theorem c8_is_comment_amended_witness :
    _is_comment (Node.statements [] none) = some false :=
  (c8_is_comment_amended (Node.statements [] none)).2.2 (fun _ h => Node.noConfusion h)
